import Mathlib

/-!
Shallow embedding of the `chan` channel library (CSP-style channels with
select) and verification of its specification claims.

The embedding follows the TypeScript sources:
* `container.ts` : `Ring` (circular FIFO buffer) and `Actions` (waiter set
  backed by an array plus an identity-keyed index `Map`);
* `rw.ts` : the rendezvous engine `RW` composed of a `Ring` buffer, a
  `Reader` pool and a `Writer` pool;
* `chan.ts` : the `Chan` facade (`tryRead`/`tryWrite`/`read`/`write`,
  async iteration, `_ReadCase`/`_WriteCase`);
* `select.ts` : the `selectChan` operator (synchronous phase).

JavaScript `undefined`/`null` fields are modelled with `Option`; thrown
errors with `Except`; `Math.random` based choices are parameters (`pick`)
ranging over arbitrary naturals, so theorems quantifying over picks cover
every possible random choice.
-/

namespace ChanLib

/-- Error values: `ChannelError` instances and opaque abort reasons. -/
inductive Err : Type where
  | channelError (msg : String)
  | abortReason (payload : Nat)
deriving DecidableEq, Repr, Inhabited

/-- An `IteratorResult` as delivered to reader callbacks:
`\x7bdone:false, value\x7d` or `\x7bdone:true\x7d` (value `undefined`). -/
structure IterRes (T : Type) : Type where
  done : Bool
  value : Option T
deriving DecidableEq, Repr

/-- The `noResult` constant from `container.ts`: `\x7bdone: true, value: undefined\x7d`. -/
def noResult {T : Type} : IterRes T := ⟨true, none⟩

/-- The `ReadValue` envelope of `types.ts`.  `closed` may be `null`
(cancelled), hence `Option Bool`; `value` and `reason` are nullable. -/
structure ReadValue (T : Type) : Type where
  closed : Option Bool
  ok : Bool
  value : Option T
  reason : Option Err := none
deriving DecidableEq, Repr

/-- The `WriteValue` envelope of `types.ts`.  The fields `ok`, `error` and
`reason` are modelled as `Option` so that an absent (`undefined`) field is
distinguishable: `_WriteCase.tryInvoke` tests `val.ok === undefined`. -/
structure WriteValue : Type where
  ok : Option Bool
  error : Option Bool := none
  reason : Option Err := none
deriving DecidableEq, Repr

/-- An abort-signal snapshot: `aborted` flag plus `reason` payload. -/
structure Signal : Type where
  aborted : Bool
  reason : Err
deriving DecidableEq, Repr

/-! ## `Actions` (container.ts)

`Actions<T>` stores waiters in an array `actions` and an identity-keyed
`Map` `keys` from element to its index.  The `Map` is modelled by a
function `T → Option Nat` (`none` = key absent); insertion order of the
map is never observed by the code, so the functional model is faithful. -/

/-- `Map.set` on the functional map model. -/
def mapSet {T : Type} [DecidableEq T] (m : T → Option Nat) (k : T) (v : Nat) :
    T → Option Nat :=
  fun x => if x = k then some v else m x

/-- `Map.delete` on the functional map model. -/
def mapDel {T : Type} [DecidableEq T] (m : T → Option Nat) (k : T) :
    T → Option Nat :=
  fun x => if x = k then none else m x

/-- The `Actions` waiter set: backing array plus index map. -/
structure Actions (T : Type) : Type where
  actions : List T
  keys : T → Option Nat

/-- A freshly constructed `Actions` (empty array, empty map). -/
def Actions.empty {T : Type} : Actions T := ⟨[], fun _ => none⟩

/-- `Actions.length`. -/
def Actions.length {T : Type} (a : Actions T) : Nat := a.actions.length

/-- `Actions._pop`: remove and return the last element of the backing
array (the source also nulls the vacated cell, a GC-only step).  The
caller guarantees non-emptiness; on an empty array the JS code would
yield `undefined`, modelled by the `Inhabited` default. -/
def Actions.popPriv {T : Type} [Inhabited T] (a : Actions T) : T × List T :=
  (a.actions.getLastD default, a.actions.dropLast)

/-- `Actions.pop`: `_pop` plus deleting the popped element from `keys`. -/
def Actions.pop {T : Type} [DecidableEq T] [Inhabited T] (a : Actions T) :
    T × Actions T :=
  let val := a.popPriv.1
  (val, ⟨a.popPriv.2, mapDel a.keys val⟩)

/-- `Actions.removeBy i`: swap-with-last removal at index `i` (the caller
guarantees `i` is a valid index). -/
def Actions.removeBy {T : Type} [DecidableEq T] [Inhabited T] (a : Actions T)
    (i : Nat) : T × Actions T :=
  let swap := a.popPriv.1
  let vals := a.popPriv.2
  if i = vals.length then
    (swap, ⟨vals, mapDel a.keys swap⟩)
  else
    let val := vals.getD i default
    (val, ⟨vals.set i swap, mapSet (mapDel a.keys val) swap i⟩)

/-- `Actions.remove val`: look the element up in `keys`; absent ⇒ no-op,
otherwise swap-with-last removal at its index. -/
def Actions.remove {T : Type} [DecidableEq T] [Inhabited T] (a : Actions T)
    (v : T) : Actions T :=
  match a.keys v with
  | none => a
  | some i =>
    let swap := a.popPriv.1
    let vals := a.popPriv.2
    let keys1 := mapDel a.keys v
    if i = vals.length then ⟨vals, keys1⟩
    else ⟨vals.set i swap, mapSet keys1 swap i⟩

/-- `Actions.clear`: fresh array, cleared map. -/
def Actions.clearAll {T : Type} (_ : Actions T) : Actions T :=
  ⟨[], fun _ => none⟩

/-- `Actions.push`: append and record the index. -/
def Actions.push {T : Type} [DecidableEq T] (a : Actions T) (v : T) :
    Actions T :=
  ⟨a.actions ++ [v], mapSet a.keys v a.actions.length⟩

/-- The coherence invariant exactly as the specification states it: every
index entry points back at its element, and the index holds exactly the
stored elements. -/
def Actions.Coherent {T : Type} (a : Actions T) : Prop :=
  (∀ v i, a.keys v = some i → a.actions.get? i = some v) ∧
  (∀ v, v ∈ a.actions ↔ (a.keys v).isSome)

/-- The coherence invariant strengthened with distinctness of the stored
elements (in the source, elements are waiter objects compared by identity
and each object is pushed at most once). -/
def Actions.CoherentD {T : Type} (a : Actions T) : Prop :=
  a.Coherent ∧ a.actions.Nodup

/-! ## `Ring` (container.ts)

A fixed-capacity circular buffer over a backing array `arrs` with a head
`offset` and a `size`.  Array cells are nullable (`pop` nulls the vacated
cell), hence `List (Option T)`.  The capacity is `arrs.length`. -/

/-- The `Ring` circular buffer. -/
structure Ring (T : Type) : Type where
  arrs : List (Option T)
  offset : Nat
  size : Nat
deriving DecidableEq, Repr

/-- `Ring.capacity`. -/
def Ring.capacity {T : Type} (r : Ring T) : Nat := r.arrs.length

/-- `Ring.push`: fail iff full, else store at `(offset + size) % capacity`
and grow. -/
def Ring.push {T : Type} (r : Ring T) (v : T) : Bool × Ring T :=
  if r.size = r.arrs.length then (false, r)
  else
    (true, { r with arrs := r.arrs.set ((r.offset + r.size) % r.arrs.length) (some v),
                    size := r.size + 1 })

/-- `Ring.pop`: outer `none` is the `noResult` (`done`) case; otherwise
the head cell is read (`some cell`), nulled, and the head advances.  The
source resets `offset` to `0` when it reaches the capacity, which for
`offset < capacity` is `(offset + 1) % capacity`. -/
def Ring.pop {T : Type} (r : Ring T) : Option (Option T) × Ring T :=
  if r.size = 0 then (none, r)
  else
    let val := r.arrs.getD r.offset none
    let arrs1 := r.arrs.set r.offset none
    let offset1 := if r.offset + 1 = r.arrs.length then 0 else r.offset + 1
    (some val, { arrs := arrs1, offset := offset1, size := r.size - 1 })

/-- A fresh ring of capacity `cap` (`new Ring(new Array(cap))`). -/
def Ring.create (T : Type) (cap : Nat) : Ring T :=
  ⟨List.replicate cap none, 0, 0⟩

/-- The sequence of cells of the FIFO window, head first. -/
def Ring.toList {T : Type} (r : Ring T) : List (Option T) :=
  (List.range r.size).map (fun i => r.arrs.getD ((r.offset + i) % r.arrs.length) none)

/-! ## The rendezvous engine `RW` (rw.ts)

Parked readers are `ReadAction` objects (identity + callback); the
callback is external to the channel state, so a parked reader is modelled
by an identity token `Nat`.  A parked writer (`WirteAction`) additionally
carries the value to deliver, hence `Nat × T`.

`Reader.invoke`/`Writer.invoke` remove one parked action: the single
element when the pool has exactly one, otherwise the element at index
`Math.floor(Math.random() * length)` — the random index is the `pick`
parameter (theorems quantify over it).  Invoking an empty pool throws a
contract-violation error in the source; every call site is guarded by
`isEmpty`, so the model leaves that branch to the guarded default. -/

/-- One random-pick removal from a waiter pool (`Reader.invoke` /
`Writer.invoke` without the externally fired callback). -/
def Actions.invokePick {T : Type} [DecidableEq T] [Inhabited T]
    (a : Actions T) (pick : Nat) : T × Actions T :=
  if a.actions.length = 1 then a.pop else a.removeBy pick

/-- The state of the engine: optional ring buffer (present iff the
construction capacity was positive), reader pool, writer pool, closed
flag.  The close-notifier (`Completer`) lives outside the channel state
and is not required by any claim. -/
structure RWState (T : Type) : Type where
  list : Option (Ring T)
  readers : Actions Nat
  writers : Actions (Nat × T)
  isClosed : Bool

/-- `new RW(buf)` (also `new Chan(buf)`: the facade owns nothing else). -/
def RW.create (T : Type) (buf : Nat) : RWState T :=
  { list := if 0 < buf then some (Ring.create T buf) else none,
    readers := Actions.empty, writers := Actions.empty, isClosed := false }

/-- Result of `RW.tryRead`: `undefined` (closed), `noResult` (not ready),
or `\x7bvalue\x7d`/`\x7bdone:false, value\x7d` carrying the (nullable) cell. -/
inductive TryReadRes (T : Type) : Type where
  | closedRes
  | notReady
  | value (v : Option T)
deriving DecidableEq, Repr

/-- `RW.length` getter. -/
def RWState.length {T : Type} (s : RWState T) : Nat :=
  match s.list with
  | some r => r.size
  | none => 0

/-- `RW.capacity` getter. -/
def RWState.capacity {T : Type} (s : RWState T) : Nat :=
  match s.list with
  | some r => r.capacity
  | none => 0

/-- The part of `RW.tryRead` after the buffered branch: closed check,
then direct handoff from a parked writer, else not ready. -/
def RW.tryReadNoBuf {T : Type} [DecidableEq T] [Inhabited T]
    (s : RWState T) (pick : Nat) : TryReadRes T × RWState T :=
  if s.isClosed then (TryReadRes.closedRes, s)
  else if s.writers.length = 0 then (TryReadRes.notReady, s)
  else
    let wr := s.writers.invokePick pick
    (TryReadRes.value (some wr.1.2), { s with writers := wr.2 })

/-- `RW.tryRead`: pop the buffer; if a value came out and a writer is
parked, invoke the writer and push its value into the vacated slot; if
the buffer was absent or empty fall through to the closed/handoff path. -/
def RW.tryRead {T : Type} [DecidableEq T] [Inhabited T]
    (s : RWState T) (pick : Nat) : TryReadRes T × RWState T :=
  match s.list with
  | some ring =>
    match ring.pop with
    | (some cell, ring1) =>
      if s.writers.length = 0 then
        (TryReadRes.value cell, { s with list := some ring1 })
      else
        let wr := s.writers.invokePick pick
        let ring2 := (ring1.push wr.1.2).2
        (TryReadRes.value cell, { s with list := some ring2, writers := wr.2 })
    | (none, _) => RW.tryReadNoBuf s pick
  | none => RW.tryReadNoBuf s pick

/-- `RW.tryWrite`: `none` = closed (`undefined`), `some true` = handed
off to a parked reader or buffered, `some false` = full. -/
def RW.tryWrite {T : Type} [DecidableEq T] [Inhabited T]
    (s : RWState T) (v : T) (pick : Nat) : Option Bool × RWState T :=
  if s.isClosed then (none, s)
  else if s.readers.length = 0 then
    match s.list with
    | some ring =>
      let pr := ring.push v
      (some pr.1, { s with list := some pr.2 })
    | none => (some false, s)
  else
    let rd := s.readers.invokePick pick
    (some true, { s with readers := rd.2 })

/-- `RW.read`: park a reader (`Reader.connect`); `id` is the identity of
the fresh `ReadAction`. -/
def RW.read {T : Type} (s : RWState T) (id : Nat) : RWState T :=
  { s with readers := s.readers.push id }

/-- `RW.write`: park a writer (`Writer.connect`). -/
def RW.write {T : Type} [DecidableEq T] (s : RWState T) (id : Nat) (v : T) :
    RWState T :=
  { s with writers := s.writers.push (id, v) }

/-- `RW.close`: already closed ⇒ `false`, no effect; otherwise set the
flag and drain both pools (each parked writer's callback fires with the
`ChannelError`, each parked reader's with `noResult`, and both `Actions`
are cleared). -/
def RW.close {T : Type} (s : RWState T) : Bool × RWState T :=
  if s.isClosed then (false, s)
  else
    (true, { s with isClosed := true,
                    readers := s.readers.clearAll,
                    writers := s.writers.clearAll })

/-- `ReadAction.disconnect` (cancellation of a parked read). -/
def RW.disconnectRead {T : Type} (s : RWState T) (id : Nat) : RWState T :=
  { s with readers := s.readers.remove id }

/-- `WirteAction.disconnect` (cancellation of a parked write). -/
def RW.disconnectWrite {T : Type} [DecidableEq T] [Inhabited T]
    (s : RWState T) (id : Nat) (v : T) : RWState T :=
  { s with writers := s.writers.remove (id, v) }

/-! ## The `Chan` facade (chan.ts)

A `Chan` owns exactly one `RW`; its state is the `RWState`.  The
`signal`/`silent` options and thrown errors are modelled with `Option
Signal`, `Bool` and `Except Err`. -/

/-- The `ChannelError('channel already closed')` the facade constructs. -/
def closedErr : Err := Err.channelError "channel already closed"

/-- `Chan.tryRead` without a signal: map the engine result onto the
`ReadValue` envelope (`undefined` ⇒ closed envelope, `done` ⇒ not-ready
envelope, otherwise the value envelope). -/
def Chan.tryReadNS {T : Type} [DecidableEq T] [Inhabited T]
    (s : RWState T) (pick : Nat) : ReadValue T × RWState T :=
  match RW.tryRead s pick with
  | (TryReadRes.closedRes, s1) => (⟨some true, false, none, none⟩, s1)
  | (TryReadRes.notReady, s1) => (⟨some false, false, none, none⟩, s1)
  | (TryReadRes.value v, s1) => (⟨some false, true, v, none⟩, s1)

/-- `Chan.tryRead` with options: an already-aborted signal short-circuits
with the cancelled envelope (`silent`) or throws the reason. -/
def Chan.tryRead {T : Type} [DecidableEq T] [Inhabited T] (s : RWState T)
    (signal : Option Signal) (silent : Bool) (pick : Nat) :
    Except Err (ReadValue T × RWState T) :=
  match signal with
  | some sig =>
    if sig.aborted then
      if silent then Except.ok (⟨none, false, none, some sig.reason⟩, s)
      else Except.error sig.reason
    else Except.ok (Chan.tryReadNS s pick)
  | none => Except.ok (Chan.tryReadNS s pick)

/-- `Chan.tryWrite` without a signal: `undefined` from the engine becomes
the `ChannelError`, thrown unless `silent`; `true` ⇒ `\x7bok:true\x7d`;
`false` ⇒ `\x7bok:false\x7d` (full). -/
def Chan.tryWriteNS {T : Type} [DecidableEq T] [Inhabited T]
    (s : RWState T) (v : T) (silent : Bool) (pick : Nat) :
    Except Err (WriteValue × RWState T) :=
  match RW.tryWrite s v pick with
  | (none, s1) =>
    if silent then Except.ok (⟨some false, some true, some closedErr⟩, s1)
    else Except.error closedErr
  | (some true, s1) => Except.ok (⟨some true, none, none⟩, s1)
  | (some false, s1) => Except.ok (⟨some false, none, none⟩, s1)

/-- `Chan.tryWrite` with options (aborted signal short-circuits first). -/
def Chan.tryWrite {T : Type} [DecidableEq T] [Inhabited T] (s : RWState T)
    (v : T) (signal : Option Signal) (silent : Bool) (pick : Nat) :
    Except Err (WriteValue × RWState T) :=
  match signal with
  | some sig =>
    if sig.aborted then
      if silent then Except.ok (⟨some false, some true, some sig.reason⟩, s)
      else Except.error sig.reason
    else Chan.tryWriteNS s v silent pick
  | none => Chan.tryWriteNS s v silent pick

/-- The synchronous path of `Chan.read` (no signal): the result of
`tryRead` is returned directly when `closed !== false || ok`; otherwise
the operation parks, signalled here by `none`. -/
def Chan.readSync {T : Type} [DecidableEq T] [Inhabited T]
    (s : RWState T) (pick : Nat) : Option (ReadValue T × RWState T) :=
  let rv := Chan.tryReadNS s pick
  if rv.1.closed ≠ some false ∨ rv.1.ok then some rv else none

/-- The envelope the parked-read callback of `Chan.read` resolves with:
`done` ⇒ `\x7bclosed:true, ok:false, value:null\x7d`, else the value
envelope. -/
def Chan.readParkedEnvelope {T : Type} (val : IterRes T) : ReadValue T :=
  if val.done then ⟨some true, false, none, none⟩
  else ⟨some false, true, val.value, none⟩

/-- How one pass of the `for await` loop of `Chan[Symbol.asyncIterator]`
ends. -/
inductive IterStop : Type where
  | finished
  | raised (reason : Option Err)
  | suspended
deriving DecidableEq, Repr

/-- The trace of `Chan[Symbol.asyncIterator]` when driven by `for await`:
the loop body reads, breaks when `closed` is truthy, yields when `ok` and
— resuming after the yield — throws `reason` unconditionally; when not
`ok` it throws `reason` directly.  Every path through the body therefore
ends the iteration (break or throw), so the body runs at most once and
the whole trace is this single step.  `suspended` marks the read parking
(never on a closed channel). -/
def Chan.forAwaitTrace {T : Type} [DecidableEq T] [Inhabited T]
    (s : RWState T) (pick : Nat) : List (Option T) × IterStop × RWState T :=
  match Chan.readSync s pick with
  | none => ([], IterStop.suspended, s)
  | some (rv, s1) =>
    if rv.closed = some true then ([], IterStop.finished, s1)
    else if rv.ok then ([rv.value], IterStop.raised rv.reason, s1)
    else ([], IterStop.raised rv.reason, s1)

/-! ## Case objects (`_ReadCase` / `_WriteCase` in chan.ts) -/

/-- `_ReadCase.tryInvoke`: `undefined` from the engine stores the closed
envelope and reports ready; `done` reports not ready; otherwise the value
envelope is stored.  Returns (ready?, stored outcome, state). -/
def ReadCase.tryInvoke {T : Type} [DecidableEq T] [Inhabited T]
    (s : RWState T) (slot : Option (ReadValue T)) (pick : Nat) :
    Bool × Option (ReadValue T) × RWState T :=
  match RW.tryRead s pick with
  | (TryReadRes.closedRes, s1) => (true, some ⟨some true, false, none, none⟩, s1)
  | (TryReadRes.notReady, s1) => (false, slot, s1)
  | (TryReadRes.value v, s1) => (true, some ⟨some false, true, v, none⟩, s1)

/-- The outcome `_ReadCase.invoke` stores when the parked read's callback
fires with `val`: on `done` it stores `closed: true` together with
`ok: true`, otherwise the value envelope. -/
def ReadCase.invokeStore {T : Type} (val : IterRes T) : ReadValue T :=
  if val.done then ⟨some true, true, val.value, none⟩
  else ⟨some false, true, val.value, none⟩

/-- `_WriteCase.tryInvoke`: calls `Chan.tryWrite(val, \x7bsilent\x7d)` and
inspects `val.ok === undefined` first (the stored-error branch), then
`val.ok` (the success branch); anything else returns not-ready leaving
the outcome slot alone.  A thrown `ChannelError` (non-silent, closed)
propagates. -/
def WriteCase.tryInvoke {T : Type} [DecidableEq T] [Inhabited T]
    (s : RWState T) (v : T) (slot : Option WriteValue) (silent : Bool)
    (pick : Nat) : Except Err (Bool × Option WriteValue × RWState T) :=
  match Chan.tryWrite s v none silent pick with
  | Except.error e => Except.error e
  | Except.ok (val, s1) =>
    match val.ok with
    | none => Except.ok (true, some ⟨some false, some true, val.reason⟩, s1)
    | some true => Except.ok (true, some ⟨some true, none, none⟩, s1)
    | some false => Except.ok (false, slot, s1)

/-- The outcome `_WriteCase.invoke` stores when the parked write's
callback fires: `undefined` (close) ⇒ error envelope, else `ok`. -/
def WriteCase.invokeStore (ok : Option Unit) (reason : Option Err) :
    WriteValue :=
  match ok with
  | none => ⟨some false, some true, reason⟩
  | some _ => ⟨some true, none, none⟩

/-! ## `selectChan` (select.ts), synchronous phase

Several cases over several channels: the world is the list of the engine
states of the involved channels, a case referring to its channel by
index.  A case carries its outcome slot (`value_`), cleared by `reset`.
Random choices are again explicit parameters: `shufflePicks` drive the
Fisher–Yates pass, `invokePicks` the waiter-pool picks, `armIds` the
identities of actions created when arming. -/

/-- A select case: channel index, direction (with the value for a write
case), and the stored outcome slot. -/
structure SCase (T : Type) : Type where
  ch : Nat
  isRead : Bool
  wval : Option T
  slot : Option (ReadValue T ⊕ WriteValue)
deriving DecidableEq, Repr

/-- `ChanCase.reset`. -/
def SCase.reset {T : Type} (c : SCase T) : SCase T := { c with slot := none }

/-- Channel state lookup in the world (out-of-range never occurs when the
case list is well formed). -/
def worldGet {T : Type} (w : List (RWState T)) (i : Nat) : RWState T :=
  w.getD i (RW.create T 0)

/-- Store an updated channel state back into the world. -/
def worldSet {T : Type} (w : List (RWState T)) (i : Nat) (s : RWState T) :
    List (RWState T) :=
  w.set i s

/-- `ChanCase.tryInvoke` dispatched on the case direction. -/
def SCase.tryInvoke {T : Type} [DecidableEq T] [Inhabited T] (c : SCase T)
    (world : List (RWState T)) (silent : Bool) (pick : Nat) :
    Except Err (Bool × SCase T × List (RWState T)) :=
  if c.isRead then
    let prev : Option (ReadValue T) :=
      match c.slot with
      | some (Sum.inl rv) => some rv
      | _ => none
    let res := ReadCase.tryInvoke (worldGet world c.ch) prev pick
    Except.ok (res.1, { c with slot := res.2.1.map Sum.inl },
      worldSet world c.ch res.2.2)
  else
    let prev : Option WriteValue :=
      match c.slot with
      | some (Sum.inr wv) => some wv
      | _ => none
    match WriteCase.tryInvoke (worldGet world c.ch) (c.wval.getD default)
        prev silent pick with
    | Except.error e => Except.error e
    | Except.ok res =>
      Except.ok (res.1, { c with slot := res.2.1.map Sum.inr },
        worldSet world c.ch res.2.2)

/-- Swap two positions of an array. -/
def lswap {α : Type} (l : List α) (i j : Nat) : List α :=
  match l.get? i, l.get? j with
  | some a, some b => (l.set i b).set j a
  | _, _ => l

/-- The Fisher–Yates pass of `shuffle(arrs, c)`: while `c ≠ 0`, draw
`r = floor(random * c)` (modelled as `pick % c`), decrement `c`, swap
positions `c` and `r`. -/
def shuffleGo {α : Type} (picks : List Nat) : Nat → List α → List α
  | 0, l => l
  | c + 1, l => shuffleGo picks.tail c (lswap l c (picks.headD 0 % (c + 1)))

/-- `shuffle(arrs, arrs.length)`. -/
def shuffle {α : Type} (l : List α) (picks : List Nat) : List α :=
  shuffleGo picks l.length l

/-- The walk over the shuffled cases calling `tryInvoke` until the first
ready one; threads the world and the updated cases, and propagates a
thrown `ChannelError`. -/
def selectTryLoop {T : Type} [DecidableEq T] [Inhabited T] (silent : Bool) :
    List (SCase T) → List (RWState T) → List Nat →
    Except Err (Option (SCase T) × List (SCase T) × List (RWState T))
  | [], world, _ => Except.ok (none, [], world)
  | c :: rest, world, picks =>
    match c.tryInvoke world silent (picks.headD 0) with
    | Except.error e => Except.error e
    | Except.ok (ready, c1, world1) =>
      if ready then Except.ok (some c1, c1 :: rest, world1)
      else
        match selectTryLoop silent rest world1 picks.tail with
        | Except.error e => Except.error e
        | Except.ok (sel, rest1, world2) => Except.ok (sel, c1 :: rest1, world2)

/-- Arming (`case.invoke(cb)` for every case): a read case parks a reader
and a write case parks a writer on its channel. -/
def selectArm {T : Type} [DecidableEq T] [Inhabited T] :
    List (SCase T) → List (RWState T) → List Nat → List (RWState T)
  | [], world, _ => world
  | c :: rest, world, ids =>
    let s := worldGet world c.ch
    let s1 :=
      if c.isRead then RW.read s (ids.headD 0)
      else RW.write s (ids.headD 0) (c.wval.getD default)
    selectArm rest (worldSet world c.ch s1) ids.tail

/-- How the synchronous phase of `selectChan` ends. -/
inductive SelectRes (T : Type) : Type where
  | abortedRes (reason : Err)
  | nullRes
  | waitSignal
  | neverRes
  | caseSel (c : SCase T)
  | armed
deriving DecidableEq, Repr

/-- The synchronous phase of `selectChan`, in source order: already
aborted signal ⇒ fail fast; drop null cases; empty case list ⇒
`null`/wait-on-signal/never; reset every case; shuffle; try every case
until one is ready; `default` ⇒ `null`; otherwise arm every case.  The
returned triple carries the outcome, the case objects and the world as
they stand when the function returns (or suspends). -/
def selectChanSync {T : Type} [DecidableEq T] [Inhabited T]
    (signal : Option Signal) (silent defaultB : Bool)
    (chans : List (Option (SCase T))) (world : List (RWState T))
    (shufflePicks invokePicks armIds : List Nat) :
    Except Err (SelectRes T × List (Option (SCase T)) × List (RWState T)) :=
  match signal with
  | some sig =>
    if sig.aborted then
      if silent then Except.ok (SelectRes.abortedRes sig.reason, chans, world)
      else Except.error sig.reason
    else
      selectChanRest silent defaultB (signal.isSome) chans world
        shufflePicks invokePicks armIds
  | none =>
    selectChanRest silent defaultB false chans world
      shufflePicks invokePicks armIds
where
  /-- Everything after the fail-fast check. -/
  selectChanRest (silent defaultB hasSignal : Bool)
      (chans : List (Option (SCase T))) (world : List (RWState T))
      (shufflePicks invokePicks armIds : List Nat) :
      Except Err (SelectRes T × List (Option (SCase T)) × List (RWState T)) :=
    let cs := chans.filterMap id
    if cs.isEmpty then
      if defaultB then Except.ok (SelectRes.nullRes, chans, world)
      else if hasSignal then Except.ok (SelectRes.waitSignal, chans, world)
      else Except.ok (SelectRes.neverRes, chans, world)
    else
      let cs1 := cs.map SCase.reset
      let cs2 := shuffle cs1 shufflePicks
      match selectTryLoop silent cs2 world invokePicks with
      | Except.error e => Except.error e
      | Except.ok (some c, cs3, world1) =>
        Except.ok (SelectRes.caseSel c, cs3.map some, world1)
      | Except.ok (none, cs3, world1) =>
        if defaultB then Except.ok (SelectRes.nullRes, cs3.map some, world1)
        else
          Except.ok (SelectRes.armed, cs3.map some, selectArm cs3 world1 armIds)

/-! ## Iterated operations and sample states -/

/-- A sequence of `tryWrite` calls, one per value, with one random pick
each (the pick is consulted only when a reader is parked). -/
def RW.tryWriteAll {T : Type} [DecidableEq T] [Inhabited T] :
    RWState T → List T → List Nat → List (Option Bool) × RWState T
  | s, [], _ => ([], s)
  | s, v :: vs, picks =>
    let p := RW.tryWrite s v (picks.headD 0)
    let q := RW.tryWriteAll p.2 vs picks.tail
    (p.1 :: q.1, q.2)

/-- A sequence of `n` `tryRead` calls. -/
def RW.tryReadN {T : Type} [DecidableEq T] [Inhabited T] :
    RWState T → Nat → List Nat → List (TryReadRes T) × RWState T
  | s, 0, _ => ([], s)
  | s, n + 1, picks =>
    let p := RW.tryRead s (picks.headD 0)
    let q := RW.tryReadN p.2 n picks.tail
    (p.1 :: q.1, q.2)

/-- A buffered channel in a quiescent state: empty pools, open, and a
well-formed ring of capacity `k` whose FIFO window holds exactly `vs`. -/
def CleanBuf {T : Type} (s : RWState T) (k : Nat) (vs : List T) : Prop :=
  ∃ r : Ring T, s.list = some r ∧ r.arrs.length = k ∧ r.offset < k ∧
    r.toList = vs.map some ∧ vs.length ≤ k ∧
    s.readers.length = 0 ∧ s.writers.length = 0 ∧ s.isClosed = false

/-- States reachable from a fresh channel through the public surface.
`tryRead`/`tryWrite`/`close` run unconditionally.  A reader parks
(`RW.read`) only with an empty buffer: `Chan.read` parks only right
after `tryRead` returned not-ready (empty buffer, no parked writer, not
closed), and `selectChan` arms a read case only when every case's
`tryInvoke` returned false — the read case's own `tryInvoke` saw
not-ready, the other false `tryInvoke` calls left all states unchanged,
and arming only parks waiters, so the buffer is still empty at arming
time.  Writer parks and waiter cancellations are unconstrained. -/
inductive Reachable {T : Type} [DecidableEq T] [Inhabited T] :
    RWState T → Prop where
  | init (cap : Nat) : Reachable (RW.create T cap)
  | stepTryRead {s : RWState T} (pick : Nat) :
      Reachable s → Reachable (RW.tryRead s pick).2
  | stepTryWrite {s : RWState T} (v : T) (pick : Nat) :
      Reachable s → Reachable (RW.tryWrite s v pick).2
  | stepClose {s : RWState T} : Reachable s → Reachable (RW.close s).2
  | stepParkRead {s : RWState T} (id : Nat) :
      Reachable s → s.length = 0 → Reachable (RW.read s id)
  | stepParkWrite {s : RWState T} (id : Nat) (v : T) :
      Reachable s → Reachable (RW.write s id v)
  | stepDiscRead {s : RWState T} (id : Nat) :
      Reachable s → Reachable (RW.disconnectRead s id)
  | stepDiscWrite {s : RWState T} (id : Nat) (v : T) :
      Reachable s → Reachable (RW.disconnectWrite s id v)

/-- `Chan.closed`: a channel closed right after construction. -/
def closedNat : RWState Nat := (RW.close (RW.create Nat 0)).2

/-- The repository's own async-iteration example: a channel of capacity
5, the values 10, 20, 30 written, then closed. -/
def iterSample : RWState Nat :=
  (RW.close (RW.tryWriteAll (RW.create Nat 5) [10, 20, 30] []).2).2

/-- A capacity-1 channel holding one buffered value (so a read case on it
is ready, and a further write sees Full). -/
def fullOne : RWState Nat := (RW.tryWrite (RW.create Nat 1) 4 0).2

/-! # Theorems -/

/-- C1: the claim states that every `ReadValue` envelope has at most one
of `closed = true` and `ok = true`, and in particular that a parked read
completing with end-of-stream stores `ok = false`.  The code violates
this: when a parked `_ReadCase` fires with `done` (which happens when the
channel closes, the reader pool draining every parked action with
`noResult`), the stored outcome is `\x7bclosed: true, ok: true\x7d`.  By
contrast the synchronous `_ReadCase.tryInvoke` end-of-stream path stores
`ok: false`, as the claim (and `types.ts`'s own documentation) demands. -/
theorem C1_parked_endofstream_stores_ok_true :
    (ReadCase.invokeStore (noResult (T := Nat))).closed = some true ∧
    (ReadCase.invokeStore (noResult (T := Nat))).ok = true ∧
    (ReadCase.tryInvoke closedNat none 0).2.1 =
      some ⟨some true, false, none, none⟩ :=
  ⟨rfl, rfl, rfl⟩

/-- C2: the claim states that `_WriteCase.tryInvoke(silent := true)` on a
closed channel returns `true` and stores the error envelope.  The code
checks `val.ok === undefined`, but `Chan.tryWrite` always sets `ok` to a
boolean — on a closed channel in silent mode it returns
`\x7bok: false, error: true, reason\x7d` — so the stored-error branch is dead
and `tryInvoke` falls through to `return false`, storing nothing.  The
non-silent mode does rethrow the `ChannelError` as the claim says. -/
theorem C2_writecase_silent_closed_returns_false :
    WriteCase.tryInvoke closedNat 7 none true 0 =
      Except.ok (false, none, closedNat) ∧
    WriteCase.tryInvoke closedNat 7 none false 0 = Except.error closedErr :=
  ⟨rfl, rfl⟩

/-- C4: the claim states that asynchronously iterating a closed channel
whose buffer holds `[10, 20, 30]` yields those values and terminates
cleanly.  The loop body of `Chan[Symbol.asyncIterator]`, however, throws
`reason` (which is `undefined` after a successful read) unconditionally
once the consumer resumes after the first `yield`, so the iteration
yields only the first value and then raises. -/
theorem C4_iteration_raises_after_first_value :
    (Chan.forAwaitTrace iterSample 0).1 = [some 10] ∧
    (Chan.forAwaitTrace iterSample 0).2.1 = IterStop.raised none :=
  ⟨rfl, rfl⟩

/-- C5: writing to a closed channel leaves the state untouched and
surfaces the `ChannelError`: as the returned envelope
`\x7bok: false, error: true, reason\x7d` in silent mode, thrown otherwise. -/
theorem C5_trywrite_closed {T : Type} [DecidableEq T] [Inhabited T]
    (s : RWState T) (v : T) (pick : Nat) (h : s.isClosed = true) :
    Chan.tryWrite s v none true pick =
      Except.ok (⟨some false, some true, some closedErr⟩, s) ∧
    Chan.tryWrite s v none false pick = Except.error closedErr := by
  unfold Chan.tryWrite Chan.tryWriteNS RW.tryWrite
  simp [h]

/-- Witness for C5 at a concrete closed channel. -/
theorem C5_trywrite_closed_witness :
    closedNat.isClosed = true ∧
    (Chan.tryWrite closedNat 7 none true 0 =
        Except.ok (⟨some false, some true, some closedErr⟩, closedNat) ∧
      Chan.tryWrite closedNat 7 none false 0 = Except.error closedErr) :=
  ⟨rfl, C5_trywrite_closed closedNat 7 0 rfl⟩

/-- C10: when `tryRead` reports not-ready or `tryWrite` reports full, the
entire engine state — buffer (cells, offset, size), both pools and the
closed flag — is returned unchanged. -/
theorem C10_not_ready_frame {T : Type} [DecidableEq T] [Inhabited T]
    (s : RWState T) (v : T) (pick : Nat) :
    ((RW.tryRead s pick).1 = TryReadRes.notReady → (RW.tryRead s pick).2 = s) ∧
    ((RW.tryWrite s v pick).1 = some false → (RW.tryWrite s v pick).2 = s) := by
  obtain ⟨l, rd, wr, c⟩ := s
  constructor
  · intro h
    unfold RW.tryRead RW.tryReadNoBuf at h ⊢
    rcases l with _ | ring
    · by_cases hc : c = true
      · simp [hc] at h
      · by_cases hw : wr.length = 0
        · simp [hc, hw]
        · simp [hc, hw] at h
    · rcases hp : ring.pop with ⟨_ | cell, ring1⟩
      all_goals simp only [hp] at h ⊢
      · by_cases hc : c = true
        · simp [hc] at h
        · by_cases hw : wr.length = 0
          · simp [hc, hw]
          · simp [hc, hw] at h
      · by_cases hw : wr.length = 0 <;> simp [hw] at h
  · intro h
    unfold RW.tryWrite at h ⊢
    by_cases hc : c = true
    · simp [hc] at h
    · by_cases hr : rd.length = 0
      · rcases l with _ | ring
        · simp [hc, hr]
        · unfold Ring.push at h ⊢
          by_cases hf : ring.size = ring.arrs.length
          · simp [hc, hr, hf]
          · simp [hc, hr, hf] at h
      · simp [hc, hr] at h

/-- Witness for C10: a fresh empty capacity-1 channel reads not-ready;
the same channel holding a value writes full; both are unchanged. -/
theorem C10_not_ready_frame_witness :
    (RW.tryRead (RW.create Nat 1) 0).2 = RW.create Nat 1 ∧
    (RW.tryWrite fullOne 9 0).2 = fullOne :=
  ⟨(C10_not_ready_frame (RW.create Nat 1) 9 0).1 rfl,
   (C10_not_ready_frame fullOne 9 0).2 rfl⟩

/-- C7: `selectChan` with an already-aborted signal fails fast — it
returns the `\x7breason\x7d` envelope in silent mode and throws the reason
otherwise, before filtering, resetting, try-invoking or arming any case:
the case list and every channel state are exactly the inputs. -/
theorem C7_select_aborted_fail_fast {T : Type} [DecidableEq T] [Inhabited T]
    (sig : Signal) (h : sig.aborted = true) (silent defaultB : Bool)
    (chans : List (Option (SCase T))) (world : List (RWState T))
    (sp ip ai : List Nat) :
    selectChanSync (some sig) silent defaultB chans world sp ip ai =
      (if silent then
        Except.ok (SelectRes.abortedRes sig.reason, chans, world)
       else Except.error sig.reason) := by
  unfold selectChanSync
  simp [h]

/-- Witness for C7: the signal is aborted while a read case is ready (its
channel holds a buffered value); the call still short-circuits with the
reason and leaves case and channel untouched. -/
theorem C7_select_aborted_fail_fast_witness :
    selectChanSync (T := Nat) (some ⟨true, Err.abortReason 3⟩) true false
        [some ⟨0, true, none, none⟩] [fullOne] [] [] [] =
      Except.ok (SelectRes.abortedRes (Err.abortReason 3),
        [some ⟨0, true, none, none⟩], [fullOne]) := by
  simpa using
    C7_select_aborted_fail_fast (T := Nat) ⟨true, Err.abortReason 3⟩ rfl true
      false [some ⟨0, true, none, none⟩] [fullOne] [] [] []

/-! ## Ring abstraction lemmas -/

/-- Adding a common offset and reducing modulo `n` is injective on
indices below `n`. -/
theorem addModInj {n a i j : Nat} (hi : i < n) (hj : j < n)
    (h : (a + i) % n = (a + j) % n) : i = j := by
  have h3 : Nat.ModEq n i j := Nat.ModEq.add_left_cancel' a h
  rwa [Nat.ModEq, Nat.mod_eq_of_lt hi, Nat.mod_eq_of_lt hj] at h3

/-- The FIFO window has exactly `size` cells. -/
theorem Ring.toList_length {T : Type} (r : Ring T) :
    r.toList.length = r.size := by
  simp [Ring.toList]

/-- `Ring.push` on a non-full well-formed ring succeeds, appends the
value to the FIFO window, and preserves offset and capacity. -/
theorem Ring.push_ok {T : Type} (r : Ring T) (v : T)
    (hoff : r.offset < r.arrs.length) (hsz : r.size < r.arrs.length) :
    (r.push v).1 = true ∧ (r.push v).2.toList = r.toList ++ [some v] ∧
    (r.push v).2.offset = r.offset ∧ (r.push v).2.size = r.size + 1 ∧
    (r.push v).2.arrs.length = r.arrs.length := by
  have hne : r.size ≠ r.arrs.length := Nat.ne_of_lt hsz
  have hcap : 0 < r.arrs.length := Nat.lt_of_le_of_lt (Nat.zero_le _) hoff
  unfold Ring.push
  rw [if_neg hne]
  refine ⟨rfl, ?_, rfl, rfl, by simp⟩
  simp only [Ring.toList, List.length_set]
  rw [List.range_succ, List.map_append]
  congr 1
  · refine List.map_congr_left ?_
    intro i hi
    have hilt : i < r.size := List.mem_range.mp hi
    have hne2 : (r.offset + r.size) % r.arrs.length ≠
        (r.offset + i) % r.arrs.length := by
      intro hcontra
      exact absurd (addModInj hsz (Nat.lt_trans hilt hsz) hcontra)
        (Nat.ne_of_gt hilt)
    simp [List.getD_eq_getElem?_getD, List.getElem?_set_ne hne2]
  · have hplt : (r.offset + r.size) % r.arrs.length < r.arrs.length :=
      Nat.mod_lt _ hcap
    simp [List.getD_eq_getElem?_getD, List.getElem?_set_eq_of_lt _ hplt]

/-- `Ring.push` on a full ring fails and returns the ring unchanged. -/
theorem Ring.push_full {T : Type} (r : Ring T) (v : T)
    (h : r.size = r.arrs.length) : r.push v = (false, r) := by
  unfold Ring.push
  rw [if_pos h]

/-- `Ring.pop` on a well-formed non-empty ring returns the head of the
FIFO window and leaves the tail, advancing the offset modulo the
capacity. -/
theorem Ring.pop_cons {T : Type} (r : Ring T) (hd : Option T)
    (tl : List (Option T)) (hoff : r.offset < r.arrs.length)
    (hsz : r.size ≤ r.arrs.length) (htl : r.toList = hd :: tl) :
    (r.pop).1 = some hd ∧ (r.pop).2.toList = tl ∧
    (r.pop).2.offset < r.arrs.length ∧ (r.pop).2.size = r.size - 1 ∧
    (r.pop).2.arrs.length = r.arrs.length := by
  have hcap : 0 < r.arrs.length := Nat.lt_of_le_of_lt (Nat.zero_le _) hoff
  have hsz0 : r.size ≠ 0 := by
    intro h0
    have := r.toList_length
    rw [htl, h0] at this
    simp at this
  obtain ⟨m, hm⟩ : ∃ m, r.size = m + 1 :=
    ⟨r.size - 1, (Nat.succ_pred_eq_of_pos (Nat.pos_of_ne_zero hsz0)).symm⟩
  have hoff1 : (if r.offset + 1 = r.arrs.length then 0 else r.offset + 1) =
      (r.offset + 1) % r.arrs.length := by
    by_cases hb : r.offset + 1 = r.arrs.length
    · rw [if_pos hb, hb, Nat.mod_self]
    · rw [if_neg hb,
        Nat.mod_eq_of_lt (Nat.lt_of_le_of_ne (Nat.succ_le_of_lt hoff) hb)]
  have hwindow : r.toList = r.arrs.getD r.offset none ::
      (List.range m).map
        (fun i => r.arrs.getD ((r.offset + (i + 1)) % r.arrs.length) none) := by
    rw [Ring.toList, hm, List.range_succ_eq_map, List.map_cons, List.map_map]
    congr 1
    · rw [Nat.add_zero, Nat.mod_eq_of_lt hoff]
  unfold Ring.pop
  rw [if_neg hsz0]
  have hhd : r.arrs.getD r.offset none = hd := by
    rw [hwindow] at htl
    exact (List.cons.injEq _ _ _ _ ▸ htl).1
  refine ⟨by rw [hhd], ?_, ?_, rfl, by simp⟩
  · have htail : tl = (List.range m).map
        (fun i => r.arrs.getD ((r.offset + (i + 1)) % r.arrs.length) none) := by
      rw [hwindow] at htl
      exact (List.cons.injEq _ _ _ _ ▸ htl).2.symm
    rw [htail]
    simp only [Ring.toList, List.length_set, hm, Nat.succ_sub_one, hoff1]
    refine List.map_congr_left ?_
    intro i hi
    have hilt : i < m := List.mem_range.mp hi
    have hmod : ((r.offset + 1) % r.arrs.length + i) % r.arrs.length =
        (r.offset + (i + 1)) % r.arrs.length := by
      rw [Nat.mod_add_mod]
      congr 1
      omega
    rw [hmod]
    have hne2 : r.offset ≠ (r.offset + (i + 1)) % r.arrs.length := by
      intro hcontra
      have : (r.offset + 0) % r.arrs.length =
          (r.offset + (i + 1)) % r.arrs.length := by
        rw [Nat.add_zero, Nat.mod_eq_of_lt hoff]
        exact hcontra
      have : (0 : Nat) = i + 1 := by
        refine addModInj hcap ?_ this
        omega
      omega
    simp [List.getD_eq_getElem?_getD, List.getElem?_set_ne hne2]
  · simp only [hoff1]
    exact Nat.mod_lt _ hcap

/-! ## Quiescent buffered-channel lemmas (towards C6) -/

/-- In a quiescent buffered state with room, `tryWrite` buffers the value
at the tail of the FIFO window. -/
theorem cleanBuf_tryWrite_ok {T : Type} [DecidableEq T] [Inhabited T]
    {s : RWState T} {k : Nat} {vs : List T} (h : CleanBuf s k vs) (v : T)
    (pick : Nat) (hroom : vs.length < k) :
    (RW.tryWrite s v pick).1 = some true ∧
    CleanBuf (RW.tryWrite s v pick).2 k (vs ++ [v]) := by
  obtain ⟨r, hl, hcap, hoff, htl, hle, hrd, hwr, hc⟩ := h
  have hsize : r.size = vs.length := by
    have hlen := r.toList_length
    rw [htl] at hlen
    simpa using hlen.symm
  have hoff2 : r.offset < r.arrs.length := by rw [hcap]; exact hoff
  have hsz2 : r.size < r.arrs.length := by rw [hcap, hsize]; exact hroom
  obtain ⟨hp1, hp2, hp3, hp4, hp5⟩ := Ring.push_ok r v hoff2 hsz2
  unfold RW.tryWrite
  simp only [Actions.length] at hrd hwr
  simp only [hc, Bool.false_eq_true, if_false, Actions.length, hrd, if_pos,
    hl, if_true]
  refine ⟨by rw [hp1], (r.push v).2, rfl, ?_, ?_, ?_, by simp; omega, hrd,
    hwr, rfl⟩
  · rw [hp5, hcap]
  · rw [hp3]; exact hoff
  · rw [hp2, htl]; simp

/-- In a quiescent buffered state that is full, `tryWrite` reports full
and returns the state unchanged. -/
theorem cleanBuf_tryWrite_full {T : Type} [DecidableEq T] [Inhabited T]
    {s : RWState T} {k : Nat} {vs : List T} (h : CleanBuf s k vs) (v : T)
    (pick : Nat) (hfull : vs.length = k) :
    RW.tryWrite s v pick = (some false, s) := by
  obtain ⟨r, hl, hcap, hoff, htl, hle, hrd, hwr, hc⟩ := h
  have hsize : r.size = vs.length := by
    have hlen := r.toList_length
    rw [htl] at hlen
    simpa using hlen.symm
  have hfull2 : r.size = r.arrs.length := by rw [hcap, hsize, hfull]
  obtain ⟨l, rd, wr, c⟩ := s
  simp only at hl hc
  unfold RW.tryWrite
  simp only [Actions.length] at hrd
  simp only [hc, Bool.false_eq_true, if_false, Actions.length, hrd, if_pos,
    hl, Ring.push_full r v hfull2, if_true]

/-- In a quiescent buffered state with a non-empty window, `tryRead` pops
and returns the head value. -/
theorem cleanBuf_tryRead {T : Type} [DecidableEq T] [Inhabited T]
    {s : RWState T} {k : Nat} {v : T} {vs : List T}
    (h : CleanBuf s k (v :: vs)) (pick : Nat) :
    (RW.tryRead s pick).1 = TryReadRes.value (some v) ∧
    CleanBuf (RW.tryRead s pick).2 k vs := by
  obtain ⟨r, hl, hcap, hoff, htl, hle, hrd, hwr, hc⟩ := h
  have hle2 : vs.length + 1 ≤ k := by simpa using hle
  have hoff2 : r.offset < r.arrs.length := by rw [hcap]; exact hoff
  have hlen := r.toList_length
  rw [htl] at hlen
  simp only [List.length_map, List.length_cons] at hlen
  have hsz2 : r.size ≤ r.arrs.length := by rw [hcap]; omega
  have hmap : r.toList = some v :: vs.map some := by simpa using htl
  obtain ⟨hq1, hq2, hq3, hq4, hq5⟩ := Ring.pop_cons r (some v) (vs.map some)
    hoff2 hsz2 hmap
  unfold RW.tryRead
  rw [hl]
  rcases hp : r.pop with ⟨res, r1⟩
  rw [hp] at hq1 hq2 hq3 hq4 hq5
  simp only at hq1
  subst hq1
  simp only [hp]
  rw [if_pos hwr]
  refine ⟨rfl, r1, rfl, ?_, ?_, hq2, by omega, hrd, hwr, hc⟩
  · rw [hq5, hcap]
  · rw [← hcap]; exact hq3

/-- Folding `tryWrite` over a value list from a quiescent state with
enough room: every write reports success and the window accumulates the
values in order. -/
theorem cleanBuf_tryWriteAll {T : Type} [DecidableEq T] [Inhabited T]
    {k : Nat} (vs2 : List T) :
    ∀ (s : RWState T) (vs : List T) (picks : List Nat), CleanBuf s k vs →
      vs.length + vs2.length ≤ k →
      (RW.tryWriteAll s vs2 picks).1 = vs2.map (fun _ => some true) ∧
      CleanBuf (RW.tryWriteAll s vs2 picks).2 k (vs ++ vs2) := by
  induction vs2 with
  | nil =>
    intro s vs picks h hle
    simpa [RW.tryWriteAll] using h
  | cons v vs2 ih =>
    intro s vs picks h hle
    have hstep := cleanBuf_tryWrite_ok h v (picks.headD 0) (by simp at hle; omega)
    have hrest := ih (RW.tryWrite s v (picks.headD 0)).2 (vs ++ [v]) picks.tail
      hstep.2 (by simp at hle ⊢; omega)
    unfold RW.tryWriteAll
    simp only [List.map_cons]
    refine ⟨?_, ?_⟩
    · rw [hstep.1, hrest.1]
    · have := hrest.2
      rwa [List.append_assoc, List.singleton_append] at this

/-- Draining a quiescent buffered state by `tryRead`, once per stored
value: the values come back in FIFO order. -/
theorem cleanBuf_tryReadN {T : Type} [DecidableEq T] [Inhabited T]
    {k : Nat} (vs : List T) :
    ∀ (s : RWState T) (picks : List Nat), CleanBuf s k vs →
      (RW.tryReadN s vs.length picks).1 =
        vs.map (fun v => TryReadRes.value (some v)) ∧
      CleanBuf (RW.tryReadN s vs.length picks).2 k [] := by
  induction vs with
  | nil =>
    intro s picks h
    simpa [RW.tryReadN] using h
  | cons v vs ih =>
    intro s picks h
    have hstep := cleanBuf_tryRead h (picks.headD 0)
    have hrest := ih (RW.tryRead s (picks.headD 0)).2 picks.tail hstep.2
    simp only [List.length_cons]
    unfold RW.tryReadN
    simp only [List.map_cons]
    exact ⟨by rw [hstep.1, hrest.1], hrest.2⟩

/-- A fresh buffered channel is quiescent and empty. -/
theorem cleanBuf_create {T : Type} (k : Nat) (hk : 0 < k) :
    CleanBuf (RW.create T k) k [] := by
  refine ⟨Ring.create T k, ?_, by simp [Ring.create], by simpa [Ring.create],
    by simp [Ring.toList, Ring.create], by simp, rfl, rfl, rfl⟩
  simp [RW.create, hk]

/-- C6: on a fresh channel of capacity `k ≥ 1`, writing `k` values all
succeeds, a further write reports full, and `k` reads return exactly the
written values in order — for every choice of random picks. -/
theorem C6_capacity_roundtrip {T : Type} [DecidableEq T] [Inhabited T]
    (k : Nat) (hk : 0 < k) (vs : List T) (hlen : vs.length = k) (extra : T)
    (wpicks rpicks : List Nat) (epick : Nat) :
    (RW.tryWriteAll (RW.create T k) vs wpicks).1 =
      vs.map (fun _ => some true) ∧
    (RW.tryWrite (RW.tryWriteAll (RW.create T k) vs wpicks).2 extra epick).1 =
      some false ∧
    (RW.tryReadN (RW.tryWriteAll (RW.create T k) vs wpicks).2 k rpicks).1 =
      vs.map (fun v => TryReadRes.value (some v)) := by
  have hwrites := cleanBuf_tryWriteAll vs (RW.create T k) [] wpicks
    (cleanBuf_create k hk) (by simpa using hlen.le)
  have hbuf : CleanBuf (RW.tryWriteAll (RW.create T k) vs wpicks).2 k vs := by
    simpa using hwrites.2
  refine ⟨hwrites.1, ?_, ?_⟩
  · rw [cleanBuf_tryWrite_full hbuf extra epick hlen]
  · have := (cleanBuf_tryReadN vs _ rpicks hbuf).1
    rwa [hlen] at this

/-- One pool invocation removes exactly one parked action. -/
theorem Actions.invokePick_length {T : Type} [DecidableEq T] [Inhabited T]
    (a : Actions T) (pick : Nat) :
    (a.invokePick pick).2.length = a.length - 1 := by
  unfold Actions.invokePick Actions.pop Actions.removeBy Actions.popPriv
    Actions.length
  by_cases h1 : a.actions.length = 1
  · simp [h1]
  · simp only [h1, if_false]
    split <;> simp [List.length_set]

/-- C3: on a channel whose buffer window is `v :: rest`, `tryRead` pops
and returns `v`.  With no parked writer the window becomes `rest`; with a
parked writer, one parked writer (any random pick) is invoked — removing
its pool slot — and its value is pushed into the vacated slot, so the
window becomes `rest ++ [w]`, preserving FIFO order. -/
theorem C3_buffered_read_refills_from_writer {T : Type} [DecidableEq T]
    [Inhabited T] (s : RWState T) (r : Ring T) (v : T)
    (rest : List (Option T)) (pick : Nat) (hl : s.list = some r)
    (hoff : r.offset < r.arrs.length) (hsz : r.size ≤ r.arrs.length)
    (htl : r.toList = some v :: rest) :
    (s.writers.length = 0 →
      RW.tryRead s pick =
        (TryReadRes.value (some v), { s with list := some (r.pop).2 }) ∧
      (r.pop).2.toList = rest) ∧
    (s.writers.length ≠ 0 →
      RW.tryRead s pick =
        (TryReadRes.value (some v),
          { s with
              list := some ((r.pop).2.push (s.writers.invokePick pick).1.2).2,
              writers := (s.writers.invokePick pick).2 }) ∧
      ((r.pop).2.push (s.writers.invokePick pick).1.2).2.toList =
        rest ++ [some (s.writers.invokePick pick).1.2] ∧
      (s.writers.invokePick pick).2.length = s.writers.length - 1) := by
  have hsz0 : r.size = rest.length + 1 := by
    have hlen := r.toList_length
    rw [htl] at hlen
    simpa using hlen.symm
  obtain ⟨hq1, hq2, hq3, hq4, hq5⟩ := Ring.pop_cons r (some v) rest hoff hsz htl
  constructor
  · intro hw
    unfold RW.tryRead
    rw [hl]
    rcases hp : r.pop with ⟨res, r1⟩
    rw [hp] at hq1 hq2
    simp only at hq1
    subst hq1
    simp only [hp]
    rw [if_pos hw]
    exact ⟨rfl, hq2⟩
  · intro hw
    have hpush := Ring.push_ok (r.pop).2 (s.writers.invokePick pick).1.2
      (by rw [hq5]; exact hq3) (by rw [hq5, hq4]; omega)
    unfold RW.tryRead
    rw [hl]
    rcases hp : r.pop with ⟨res, r1⟩
    rw [hp] at hq1 hq2 hpush
    simp only at hq1
    subst hq1
    simp only [hp]
    rw [if_neg hw]
    exact ⟨rfl, by rw [hpush.2.1, hq2], Actions.invokePick_length _ _⟩

/-- Witness for C3: a capacity-1 channel holding 4 with one parked writer
for 6; `tryRead` returns 4, the window becomes `[6]`, the writer pool
empties. -/
theorem C3_buffered_read_refills_from_writer_witness :
    (RW.tryRead (RW.write fullOne 11 6) 0).1 = TryReadRes.value (some 4) ∧
    ((RW.tryRead (RW.write fullOne 11 6) 0).2.list.map Ring.toList) =
      some [some 6] ∧
    (RW.tryRead (RW.write fullOne 11 6) 0).2.writers.length = 0 := by
  have hcase := (C3_buffered_read_refills_from_writer (RW.write fullOne 11 6)
    ((RW.write fullOne 11 6).list.getD (Ring.create Nat 1)) 4 [] 0 rfl
    (by decide) (by decide) (by decide)).2 (by decide)
  exact ⟨by rw [hcase.1], by rw [hcase.1]; decide, by rw [hcase.1]; decide⟩

/-- `tryRead` never touches the reader pool. -/
theorem RW.tryRead_keeps_readers {T : Type} [DecidableEq T] [Inhabited T]
    (s : RWState T) (pick : Nat) :
    (RW.tryRead s pick).2.readers = s.readers := by
  unfold RW.tryRead RW.tryReadNoBuf
  rcases hl : s.list with _ | ring
  all_goals simp only [hl]
  · split
    · rfl
    · split <;> rfl
  · rcases hp : ring.pop with ⟨res, ring1⟩
    rcases res with _ | cell
    · simp only [hp]
      split
      · rfl
      · split <;> rfl
    · simp only [hp]
      split <;> rfl

/-- `tryRead` on an empty buffer leaves the buffer empty. -/
theorem RW.tryRead_len_of_empty {T : Type} [DecidableEq T] [Inhabited T]
    (s : RWState T) (pick : Nat) (h : s.length = 0) :
    (RW.tryRead s pick).2.length = 0 := by
  unfold RW.tryRead RW.tryReadNoBuf
  rcases hl : s.list with _ | ring
  all_goals simp only [hl]
  · split
    · exact h
    · split
      · exact h
      · rfl
  · have hsz : ring.size = 0 := by
      unfold RWState.length at h
      rw [hl] at h
      exact h
    have hp : ring.pop = (none, ring) := by
      unfold Ring.pop
      rw [if_pos hsz]
    simp only [hp]
    split
    · exact h
    · split
      · exact h
      · exact hsz

/-- `Actions.remove` never grows the set. -/
theorem Actions.remove_length_le {T : Type} [DecidableEq T] [Inhabited T]
    (a : Actions T) (v : T) : (a.remove v).length ≤ a.length := by
  unfold Actions.remove Actions.popPriv Actions.length
  rcases hk : a.keys v with _ | i
  · exact le_refl _
  · dsimp only
    split
    · simp [List.length_dropLast]
    · simp [List.length_set, List.length_dropLast]

/-- C8: in every state reachable through the public surface, a non-empty
reader pool forces an empty buffer; in particular the handoff branch of
`tryWrite` (taken exactly when the reader pool is non-empty) never
bypasses a buffered value. -/
theorem C8_reader_pool_implies_buffer_empty {T : Type} [DecidableEq T]
    [Inhabited T] {s : RWState T} (h : Reachable s) :
    s.readers.length ≠ 0 → s.length = 0 := by
  induction h with
  | init cap => intro hrd; exact absurd rfl hrd
  | @stepTryRead s pick hs ih =>
    intro hrd
    rw [RW.tryRead_keeps_readers] at hrd
    exact RW.tryRead_len_of_empty _ _ (ih hrd)
  | @stepTryWrite s v pick hs ih =>
    intro hrd
    unfold RW.tryWrite at hrd ⊢
    by_cases hc : s.isClosed = true
    · rw [if_pos hc] at hrd ⊢
      exact ih hrd
    · rw [if_neg hc] at hrd ⊢
      by_cases hr : s.readers.length = 0
      · rw [if_pos hr] at hrd ⊢
        exfalso
        rcases hl : s.list with _ | ring
        · rw [hl] at hrd
          exact hrd hr
        · rw [hl] at hrd
          exact hrd hr
      · rw [if_neg hr] at hrd ⊢
        exact ih hr
  | @stepClose s hs ih =>
    intro hrd
    unfold RW.close at hrd ⊢
    by_cases hc : s.isClosed = true
    · rw [if_pos hc] at hrd ⊢
      exact ih hrd
    · rw [if_neg hc] at hrd
      exact absurd rfl hrd
  | @stepParkRead s id hs hlen ih =>
    intro _
    exact hlen
  | @stepParkWrite s id v hs ih =>
    intro hrd
    exact ih hrd
  | @stepDiscRead s id hs ih =>
    intro hrd
    have hle := Actions.remove_length_le s.readers id
    have hne : s.readers.length ≠ 0 := by
      intro h0
      apply hrd
      show (s.readers.remove id).length = 0
      omega
    exact ih hne
  | @stepDiscWrite s id v hs ih =>
    intro hrd
    exact ih hrd

/-- Witness for C8: park a reader on a fresh unbuffered channel (allowed:
the buffer is empty); the invariant applies and reports an empty
buffer. -/
theorem C8_reader_pool_implies_buffer_empty_witness :
    (RW.read (RW.create Nat 0) 5).length = 0 :=
  C8_reader_pool_implies_buffer_empty
    (Reachable.stepParkRead 5 (Reachable.init 0) rfl) (by decide)

/-! ## Waiter-set coherence lemmas (towards C9) -/

/-- A `get?` hit bounds the index. -/
theorem get?_some_lt {α : Type} {l : List α} {n : Nat} {a : α}
    (h : l.get? n = some a) : n < l.length := by
  by_contra hn
  rw [List.get?_len_le (Nat.le_of_not_lt hn)] at h
  exact Option.noConfusion h

/-- A non-empty list is its `dropLast` plus its `getLastD`. -/
theorem dropLast_concat_getLastD {α : Type} [Inhabited α] {l : List α}
    (h : l ≠ []) : l.dropLast ++ [l.getLastD default] = l := by
  rw [List.getLastD_eq_getLast?, List.getLast?_eq_getLast_of_ne_nil h]
  exact List.dropLast_append_getLast h

/-- Replacing a cell of a duplicate-free list by a fresh element keeps it
duplicate-free. -/
theorem nodup_set_fresh {α : Type} {l : List α} {x : α} (hn : l.Nodup)
    (hx : x ∉ l) (i : Nat) : (l.set i x).Nodup := by
  by_cases hi : i < l.length
  · rw [List.set_eq_take_cons_drop x hi]
    have hsplit : l.take i ++ l.get ⟨i, hi⟩ :: l.drop (i + 1) = l := by
      rw [← List.drop_eq_get_cons hi, List.take_append_drop]
    have hnd : (l.take i ++ l.get ⟨i, hi⟩ :: l.drop (i + 1)).Nodup := by
      rw [hsplit]; exact hn
    rw [List.nodup_append] at hnd ⊢
    obtain ⟨hA, hB, hdisj⟩ := hnd
    obtain ⟨hgB, hB2⟩ := List.nodup_cons.mp hB
    refine ⟨hA, List.nodup_cons.mpr ⟨?_, hB2⟩, ?_⟩
    · intro hmem
      exact hx ((List.drop_sublist _ _).subset hmem)
    · intro y hyA hyB
      rcases List.mem_cons.mp hyB with hyx | hyB2
      · exact hx (hyx ▸ (List.take_sublist _ _).subset hyA)
      · exact hdisj hyA (List.mem_cons_of_mem _ hyB2)
  · rw [List.set_eq_of_length_le (Nat.le_of_not_lt hi)]
    exact hn

/-- Evaluation of `mapSet` at a point. -/
theorem mapSet_eval {T : Type} [DecidableEq T] (m : T → Option Nat) (k : T)
    (i : Nat) (x : T) : mapSet m k i x = if x = k then some i else m x := rfl

/-- Evaluation of `mapDel` at a point. -/
theorem mapDel_eval {T : Type} [DecidableEq T] (m : T → Option Nat) (k : T)
    (x : T) : mapDel m k x = if x = k then none else m x := rfl

/-- The last element sits at index `length - 1`. -/
theorem getLastD_get? {T : Type} [Inhabited T] {l : List T} (h : l ≠ []) :
    l.get? (l.length - 1) = some (l.getLastD default) := by
  have hx := List.get?_concat_length l.dropLast (l.getLastD default)
  rw [dropLast_concat_getLastD h] at hx
  rwa [List.length_dropLast] at hx

/-- In a duplicate-free list the last element does not occur earlier. -/
theorem getLastD_not_mem_dropLast {T : Type} [Inhabited T] {l : List T}
    (hnd : l.Nodup) (h : l ≠ []) : l.getLastD default ∉ l.dropLast := by
  have hd := hnd
  rw [← dropLast_concat_getLastD h, List.nodup_append] at hd
  intro hmem
  exact hd.2.2 hmem (List.mem_singleton.mpr rfl)

/-- Swap-with-last removal of the last element itself (the `pop` shape):
coherence (with distinctness) is preserved. -/
theorem coherentD_popCore {T : Type} [DecidableEq T] [Inhabited T]
    {a : Actions T} (h : a.CoherentD) (hne : a.actions ≠ []) :
    Actions.CoherentD
      ⟨a.actions.dropLast, mapDel a.keys (a.actions.getLastD default)⟩ := by
  obtain ⟨⟨h1, h2⟩, hnd⟩ := h
  have hdec := dropLast_concat_getLastD (l := a.actions) hne
  have hlast := getLastD_get? (l := a.actions) hne
  have hsm := getLastD_not_mem_dropLast hnd hne
  refine ⟨⟨?_, ?_⟩, List.Nodup.sublist (List.dropLast_sublist _) hnd⟩
  · intro v i hvi
    dsimp only at hvi ⊢
    rw [mapDel_eval] at hvi
    by_cases hv : v = a.actions.getLastD default
    · rw [if_pos hv] at hvi
      exact Option.noConfusion hvi
    · rw [if_neg hv] at hvi
      have hg := h1 v i hvi
      have hi := get?_some_lt hg
      by_cases hil : i = a.actions.length - 1
      · rw [hil, hlast] at hg
        exact absurd (Option.some.inj hg).symm hv
      · rw [← hdec] at hg
        rwa [List.get?_append (by simp; omega)] at hg
  · intro v
    dsimp only
    rw [mapDel_eval]
    constructor
    · intro hmem
      have hval : v ∈ a.actions := by
        rw [← hdec]
        exact List.mem_append_left _ hmem
      have hvs : v ≠ a.actions.getLastD default := fun he => hsm (he ▸ hmem)
      rw [if_neg hvs]
      exact (h2 v).mp hval
    · intro hs
      by_cases hv : v = a.actions.getLastD default
      · rw [if_pos hv] at hs
        exact absurd hs (by simp)
      · rw [if_neg hv] at hs
        have hval := (h2 v).mpr hs
        rw [← hdec] at hval
        rcases List.mem_append.mp hval with hmem | hmem
        · exact hmem
        · exact absurd (List.mem_singleton.mp hmem) hv

/-- Swap-with-last removal of an interior element: coherence (with
distinctness) is preserved. -/
theorem coherentD_swapCore {T : Type} [DecidableEq T] [Inhabited T]
    {a : Actions T} (h : a.CoherentD) {i : Nat} {v : T}
    (hv : a.actions.get? i = some v) (hlt : i + 1 < a.actions.length) :
    Actions.CoherentD
      ⟨a.actions.dropLast.set i (a.actions.getLastD default),
        mapSet (mapDel a.keys v) (a.actions.getLastD default) i⟩ := by
  obtain ⟨⟨h1, h2⟩, hnd⟩ := h
  have hne : a.actions ≠ [] := by
    intro he
    rw [he] at hlt
    simp at hlt
  have hdec := dropLast_concat_getLastD (l := a.actions) hne
  have hlast := getLastD_get? (l := a.actions) hne
  have hsm := getLastD_not_mem_dropLast hnd hne
  have hndv : a.actions.dropLast.Nodup :=
    List.Nodup.sublist (List.dropLast_sublist _) hnd
  have hlen : a.actions.dropLast.length = a.actions.length - 1 := by simp
  have hivals : i < a.actions.dropLast.length := by omega
  have hvv : a.actions.dropLast.get? i = some v := by
    rw [← hdec] at hv
    rwa [List.get?_append hivals] at hv
  have hvmem : v ∈ a.actions.dropLast := List.mem_iff_get?.mpr ⟨i, hvv⟩
  have hvs : v ≠ a.actions.getLastD default := fun he => hsm (he ▸ hvmem)
  refine ⟨⟨?_, ?_⟩, nodup_set_fresh hndv hsm i⟩
  · intro w j hw
    dsimp only at hw ⊢
    rw [mapSet_eval] at hw
    by_cases hws : w = a.actions.getLastD default
    · rw [if_pos hws] at hw
      rw [← Option.some.inj hw, hws]
      exact List.get?_set_eq_of_lt _ hivals
    · rw [if_neg hws, mapDel_eval] at hw
      by_cases hwv : w = v
      · rw [if_pos hwv] at hw
        exact Option.noConfusion hw
      · rw [if_neg hwv] at hw
        have hg := h1 w j hw
        have hj := get?_some_lt hg
        have hji : j ≠ i := by
          intro he
          rw [he, hv] at hg
          exact hwv (Option.some.inj hg).symm
        have hjl : j ≠ a.actions.length - 1 := by
          intro he
          rw [he, hlast] at hg
          exact hws (Option.some.inj hg).symm
        have hjlt : j < a.actions.dropLast.length := by omega
        rw [List.get?_set_ne _ _ (Ne.symm hji)]
        rw [← hdec] at hg
        rwa [List.get?_append hjlt] at hg
  · intro w
    dsimp only
    rw [mapSet_eval]
    constructor
    · intro hmem
      obtain ⟨j, hj⟩ := List.mem_iff_get?.mp hmem
      by_cases hji : j = i
      · rw [hji, List.get?_set_eq_of_lt _ hivals] at hj
        have hws : w = a.actions.getLastD default := (Option.some.inj hj).symm
        rw [if_pos hws]
        simp
      · rw [List.get?_set_ne _ _ (Ne.symm hji)] at hj
        have hwv : w ≠ v := by
          intro he
          subst he
          exact hji (List.get?_inj hivals hndv (hvv.trans hj.symm)).symm
        by_cases hws : w = a.actions.getLastD default
        · rw [if_pos hws]
          simp
        · rw [if_neg hws, mapDel_eval, if_neg hwv]
          have hwmem : w ∈ a.actions := by
            rw [← hdec]
            exact List.mem_append_left _ (List.mem_iff_get?.mpr ⟨j, hj⟩)
          exact (h2 w).mp hwmem
    · intro hs
      by_cases hws : w = a.actions.getLastD default
      · rw [hws]
        exact List.mem_iff_get?.mpr ⟨i, List.get?_set_eq_of_lt _ hivals⟩
      · rw [if_neg hws, mapDel_eval] at hs
        by_cases hwv : w = v
        · rw [if_pos hwv] at hs
          exact absurd hs (by simp)
        · rw [if_neg hwv] at hs
          have hwmem := (h2 w).mpr hs
          rw [← hdec] at hwmem
          rcases List.mem_append.mp hwmem with hm | hm
          · obtain ⟨j, hj⟩ := List.mem_iff_get?.mp hm
            have hji : j ≠ i := by
              intro he
              rw [he, hvv] at hj
              exact hwv (Option.some.inj hj).symm
            exact List.mem_iff_get?.mpr
              ⟨j, by rw [List.get?_set_ne _ _ (Ne.symm hji)]; exact hj⟩
          · exact absurd (List.mem_singleton.mp hm) hws


/-- A `getD` hit below the length agrees with `get?`. -/
theorem get?_getD_of_lt {α : Type} [Inhabited α] (l : List α) (i : Nat)
    (h : i < l.length) : l.get? i = some (l.getD i default) := by
  rcases hx : l.get? i with _ | x
  · rw [List.get?_eq_none] at hx
    omega
  · rw [List.getD_eq_get?, hx]
    rfl

/-- A fresh `Actions` is coherent and duplicate-free. -/
theorem coherentD_empty {T : Type} : (Actions.empty (T := T)).CoherentD := by
  refine ⟨⟨?_, ?_⟩, List.nodup_nil⟩
  · intro v i h
    exact Option.noConfusion h
  · intro v
    simp [Actions.empty]

/-- `push` of an element not currently stored preserves coherence. -/
theorem coherentD_push {T : Type} [DecidableEq T] {a : Actions T}
    (h : a.CoherentD) {v : T} (hv : v ∉ a.actions) : (a.push v).CoherentD := by
  obtain ⟨⟨h1, h2⟩, hnd⟩ := h
  refine ⟨⟨?_, ?_⟩, ?_⟩
  · intro w j hw
    dsimp only [Actions.push] at hw ⊢
    rw [mapSet_eval] at hw
    by_cases hwv : w = v
    · rw [if_pos hwv] at hw
      rw [← Option.some.inj hw, hwv]
      exact List.get?_concat_length _ _
    · rw [if_neg hwv] at hw
      have hg := h1 w j hw
      have hj := get?_some_lt hg
      rw [List.get?_append hj]
      exact hg
  · intro w
    dsimp only [Actions.push]
    rw [mapSet_eval]
    by_cases hwv : w = v
    · subst hwv
      simp
    · rw [if_neg hwv, List.mem_append, List.mem_singleton]
      constructor
      · rintro (hm | hm)
        · exact (h2 w).mp hm
        · exact absurd hm hwv
      · intro hs
        exact Or.inl ((h2 w).mpr hs)
  · dsimp only [Actions.push]
    rw [List.nodup_append]
    refine ⟨hnd, List.nodup_singleton _, ?_⟩
    intro y hy hy2
    rw [List.mem_singleton] at hy2
    exact hv (hy2 ▸ hy)

/-- `removeBy` at a valid index preserves coherence. -/
theorem coherentD_removeBy {T : Type} [DecidableEq T] [Inhabited T]
    {a : Actions T} (h : a.CoherentD) {i : Nat} (hi : i < a.actions.length) :
    (a.removeBy i).2.CoherentD := by
  have hne : a.actions ≠ [] := by
    intro he
    rw [he] at hi
    simp at hi
  have hlen : a.actions.dropLast.length = a.actions.length - 1 := by simp
  unfold Actions.removeBy Actions.popPriv
  dsimp only
  by_cases hil : i = a.actions.dropLast.length
  · rw [if_pos hil]
    exact coherentD_popCore h hne
  · rw [if_neg hil]
    have hlt : i + 1 < a.actions.length := by omega
    have hiv : i < a.actions.dropLast.length := by omega
    have hval : a.actions.get? i =
        some (a.actions.dropLast.getD i default) := by
      have hdec := dropLast_concat_getLastD (l := a.actions) hne
      have hlift : a.actions.get? i = a.actions.dropLast.get? i := by
        conv_lhs => rw [← hdec]
        exact List.get?_append hiv
      exact hlift.trans (get?_getD_of_lt _ _ hiv)
    exact coherentD_swapCore h hval hlt

/-- `remove` preserves coherence (and is a no-op on an absent element). -/
theorem coherentD_remove {T : Type} [DecidableEq T] [Inhabited T]
    {a : Actions T} (h : a.CoherentD) (v : T) : (a.remove v).CoherentD := by
  unfold Actions.remove Actions.popPriv
  rcases hk : a.keys v with _ | i
  · simpa only [hk] using h
  · simp only [hk]
    have hg := h.1.1 v i hk
    have hi := get?_some_lt hg
    have hne : a.actions ≠ [] := by
      intro he
      rw [he] at hi
      simp at hi
    have hlen : a.actions.dropLast.length = a.actions.length - 1 := by simp
    by_cases hil : i = a.actions.dropLast.length
    · rw [if_pos hil]
      have hvl : v = a.actions.getLastD default := by
        have hx := getLastD_get? (l := a.actions) hne
        rw [hil, hlen] at hg
        exact Option.some.inj (hg.symm.trans hx)
      rw [hvl]
      exact coherentD_popCore h hne
    · rw [if_neg hil]
      have hlt : i + 1 < a.actions.length := by omega
      exact coherentD_swapCore h hg hlt

/-- C9 (amended): the coherence invariant, strengthened with the stored
elements being pairwise distinct, holds for a fresh waiter set and is
preserved by every operation — `push` of an element not currently stored
(waiters are fresh objects, so the source never pushes a stored one),
`pop` of a non-empty set, `removeBy` at a valid index, `remove`, and
`clear`; and `remove` of an absent element changes nothing. -/
theorem C9_coherence_preserved {T : Type} [DecidableEq T] [Inhabited T] :
    (Actions.empty (T := T)).CoherentD ∧
    ∀ a : Actions T, a.CoherentD →
      (∀ v, v ∉ a.actions → (a.push v).CoherentD) ∧
      (a.actions ≠ [] → (a.pop).2.CoherentD) ∧
      (∀ i, i < a.actions.length → (a.removeBy i).2.CoherentD) ∧
      (∀ v, (a.remove v).CoherentD) ∧
      a.clearAll.CoherentD ∧
      (∀ v, a.keys v = none → a.remove v = a) := by
  refine ⟨coherentD_empty, fun a h => ⟨?_, ?_, ?_, ?_, ?_, ?_⟩⟩
  · intro v hv
    exact coherentD_push h hv
  · intro hne
    exact coherentD_popCore h hne
  · intro i hi
    exact coherentD_removeBy h hi
  · intro v
    exact coherentD_remove h v
  · exact coherentD_empty
  · intro v hk
    unfold Actions.remove
    rw [hk]

/-- Witness for C9: starting from the singleton set holding 3 — coherent
by the theorem itself — `pop` preserves coherence and removing the absent
element 9 changes nothing. -/
theorem C9_coherence_preserved_witness :
    ((Actions.empty (T := Nat)).push 3).CoherentD ∧
    (((Actions.empty (T := Nat)).push 3).pop).2.CoherentD ∧
    ((Actions.empty (T := Nat)).push 3).remove 9 =
      (Actions.empty (T := Nat)).push 3 := by
  have thm := C9_coherence_preserved (T := Nat)
  have h0 := thm.1
  have h1 := (thm.2 _ h0).1 3 (by simp [Actions.empty])
  refine ⟨h1, (thm.2 _ h1).2.1 (by simp [Actions.push, Actions.empty]), ?_⟩
  exact (thm.2 _ h1).2.2.2.2.2 9 rfl

/-- C9 counterexample: the claim's coherence invariant (without the
distinctness strengthening) is not preserved by `remove`.  After pushing
the same element twice, the state still satisfies the stated invariant —
`items[index[w]] == w` for the stored `w`, and the index holds exactly
the stored elements — but `remove` then leaves the element stored with no
index entry. -/
theorem C9_remove_after_duplicate_push_breaks_coherence :
    ((Actions.empty (T := Nat)).push 5 |>.push 5).Coherent ∧
    ¬ ((Actions.empty (T := Nat)).push 5 |>.push 5 |>.remove 5).Coherent := by
  constructor
  · constructor
    · intro v i h
      by_cases hv : v = 5
      · subst hv
        have hx := h
        simp [Actions.push, Actions.empty, mapSet] at hx
        have : i = 1 := by omega
        subst this
        decide
      · simp [Actions.push, Actions.empty, mapSet, hv] at h
    · intro v
      by_cases hv : v = 5
      · subst hv
        simp [Actions.push, Actions.empty, mapSet]
      · simp [Actions.push, Actions.empty, mapSet, hv]
  · intro hcoh
    have hmem := (hcoh.2 5).mp (by decide)
    exact absurd hmem (by decide)

/-- Witness for C6 at capacity 2 with the values 8 and 9. -/
theorem C6_capacity_roundtrip_witness :
    (RW.tryWriteAll (RW.create Nat 2) [8, 9] []).1 = [some true, some true] ∧
    (RW.tryWrite (RW.tryWriteAll (RW.create Nat 2) [8, 9] []).2 7 0).1 =
      some false ∧
    (RW.tryReadN (RW.tryWriteAll (RW.create Nat 2) [8, 9] []).2 2 []).1 =
      [TryReadRes.value (some 8), TryReadRes.value (some 9)] := by
  simpa using C6_capacity_roundtrip (T := Nat) 2 (by norm_num) [8, 9] rfl 7
    [] [] 0

end ChanLib
